import Mathlib

/-!
Verification of the transformation engine in pkg/html/transform/transform.go.

The Go code mutates a parent-linked tree of `*html.Node` values in place.  The
shallow embedding below represents each node as a value of the inductive type
`Node`; the Go pointer identity of a `*Node` is represented by the `id` field,
and Go slice values are represented by Lean lists (Go `append`, `make` and
`copy` are modelled value-semantically).  The `Parent` back pointer of a node
cannot live inside a purely functional tree value, so the two operations that
read it (`Replace` and `CopyAnd`) receive the parent's child list explicitly
and return the updated child list.
-/

set_option autoImplicit false

namespace transform

/-- Attribute embeds Go `html.Attribute`: a `Key` and a `Val` string.  The Go
zero value (as produced by `make([]Attribute, n)`) is `Attribute.mk "" ""`. -/
structure Attribute where
  Key : String
  Val : String
deriving DecidableEq

/-- Node embeds the Go `*html.Node` tree element: `id` stands for the pointer
identity of the allocation (Go compares nodes with pointer equality `c == n`),
`Data` is the tag or text payload, `Attr` the attribute list and `Child` the
ordered child list. -/
inductive Node where
  | mk (id : Nat) (Data : String) (Attr : List Attribute) (Child : List Node)

/-- Projection for the modelled pointer identity. -/
def Node.id : Node → Nat
  | .mk i _ _ _ => i

/-- Projection for the node payload. -/
def Node.Data : Node → String
  | .mk _ d _ _ => d

/-- Projection for the attribute list. -/
def Node.Attr : Node → List Attribute
  | .mk _ _ a _ => a

/-- Projection for the child list. -/
def Node.Child : Node → List Node
  | .mk _ _ _ c => c

/-- Assignment `n.Child = cs` of the Go code: same allocation, new child list. -/
def Node.withChild : Node → List Node → Node
  | .mk i d a _, c => .mk i d a c

/-- Assignment `n.Attr = as` of the Go code: same allocation, new attributes. -/
def Node.withAttr : Node → List Attribute → Node
  | .mk i d _ c, a => .mk i d a c

/-- TransformFunc is the type of a node transformation function
(`type TransformFunc func(*Node)`); the in-place mutation of the node becomes
a function returning the updated node. -/
abbrev TransformFunc := Node → Node

/-- Stand-in for the Go zero value of `*Node` (a nil pointer), used only for
the slots of a freshly `make`d slice before they are overwritten. -/
def nilNode : Node := Node.mk 0 "" [] []

/-- Go `copy(dst, src)`: overwrites the first `min |dst| |src|` positions of
`dst` with the corresponding elements of `src` and keeps the rest of `dst`. -/
def goCopy {α : Type} (dst src : List α) : List α :=
  src.take (min dst.length src.length) ++ dst.drop (min dst.length src.length)

/-- AppendChildren, line for line from the source:
`newChild := make([]*Node, sz+len(cs)); copy(newChild, n.Child);
copy(newChild[sz:], cs); n.Child = newChild`.
The write through the subslice `newChild[sz:]` keeps the first `sz` positions
and copies into the tail. -/
def AppendChildren (cs : List Node) : TransformFunc := fun n =>
  let sz := n.Child.length
  let newChild := List.replicate (sz + cs.length) nilNode
  let newChild := goCopy newChild n.Child
  let newChild := newChild.take sz ++ goCopy (newChild.drop sz) cs
  n.withChild newChild

/-- PrependChildren, line for line from the source:
`newChild := make([]*Node, sz+len(cs)); copy(newChild[sz2:], n.Child);
copy(newChild[0:sz2], cs); n.Child = newChild`. -/
def PrependChildren (cs : List Node) : TransformFunc := fun n =>
  let sz := n.Child.length
  let sz2 := cs.length
  let newChild := List.replicate (sz + cs.length) nilNode
  let newChild := newChild.take sz2 ++ goCopy (newChild.drop sz2) n.Child
  let newChild := goCopy (newChild.take sz2) cs ++ newChild.drop sz2
  n.withChild newChild

/-- RemoveChildren: `n.Child = make([]*Node, 0)`. -/
def RemoveChildren : TransformFunc := fun n => n.withChild []

/-- ReplaceChildren: `n.Child = ns`. -/
def ReplaceChildren (ns : List Node) : TransformFunc := fun n => n.withChild ns

/-- Attribute-list part of ModifyAttrib, from the source: the loop sets
`n.Attr[i].Val = val` for every entry whose key matches and records `found`;
when nothing matched, `n.Attr` is replaced by `make([]Attribute, len+1)` (all
zero values) with only the last slot set to `{key, val}` — the old entries are
not copied over. -/
def modifyAttrList (key val : String) (l : List Attribute) : List Attribute :=
  if l.any (fun a => a.Key == key) then
    l.map (fun a => if a.Key == key then Attribute.mk a.Key val else a)
  else
    List.replicate l.length (Attribute.mk "" "") ++ [Attribute.mk key val]

/-- ModifyAttrib creates a TransformFunc that modifies the attributes of the
node it operates on. -/
def ModifyAttrib (key val : String) : TransformFunc := fun n =>
  n.withAttr (modifyAttrList key val n.Attr)

/-- DoAll: `for _, f := range fs { f(n) }` on the same node instance. -/
def DoAll (fs : List TransformFunc) : TransformFunc := fun n =>
  fs.foldl (fun m f => f m) n

/-- Splice of one Replace loop iteration, from the source:
`n := i-1; if n < 0 { n = 0 }; pre := p.Child[:n]; post := p.Child[i+1:];
newChild = append(pre, ns...); p.Child = append(newChild, post...)`.
Go truncation of `i-1` at zero is exactly Lean `Nat` subtraction, and `append`
is modelled value-semantically. -/
def spliceAt (i : Nat) (ns : List Node) (l : List Node) : List Node :=
  l.take (i - 1) ++ ns ++ l.drop (i + 1)

/-- Loop of Replace: `for i, c := range p.Child { if c == n { ... } }`.  The
`range` clause iterates over the child list as it was when the loop started
(first argument) while `p.Child` itself is threaded through as `cur`; the Go
pointer comparison `c == n` becomes the comparison of the modelled ids. -/
def replaceLoop (ns : List Node) (tgt : Node) : List Node → Nat → List Node → List Node
  | [], _, cur => cur
  | c :: rest, i, cur =>
      replaceLoop ns tgt rest (i + 1) (if c.id == tgt.id then spliceAt i ns cur else cur)

/-- Replace, acting on the target node `tgt` and the child list of its parent
(read through `n.Parent` in the Go code); returns the parent's new child
list. -/
def Replace (ns : List Node) (tgt : Node) (pchild : List Node) : List Node :=
  replaceLoop ns tgt pchild 0 pchild

/-- Modelled from the spec: `cloneNode(n, n.Parent)` lives in another file of
the repository; per the spec it deep-clones the node, with the clone's parent
reference set to the given parent.  The clone is content-identical and is a
fresh allocation, so it carries a fresh id; parent references are represented
implicitly (the clones are later spliced into the parent's child list). -/
def cloneNode (newId : Nat) : Node → Node
  | .mk _ d a c => .mk newId d a c

/-- CopyAnd, from the source: one clone of `n` per TransformFunc, each fn
applied to its own clone (`newNodes[i] = node`), then
`Replace(newNodes...)` applied to `n`.  `freshId i` supplies the address of
the i-th clone's fresh allocation; like Replace, the parent's child list is
passed explicitly and returned updated. -/
def CopyAnd (freshId : Nat → Nat) (fns : List TransformFunc) (n : Node)
    (pchild : List Node) : List Node :=
  let newNodes := (fns.enum).map (fun p => p.2 (cloneNode (freshId p.1) n))
  Replace newNodes n pchild

/-- Shapes of the `interface{}` argument of ForEach: the Go type switch
distinguishes `func(...*Node) TransformFunc`, `func(*Node) TransformFunc`,
and every other dynamic type (carried here as a description string, like the
`%s`-formatted type in the panic message). -/
inductive ForEachArg where
  | variadicFn (f : List Node → TransformFunc)
  | unaryFn (f : Node → TransformFunc)
  | badArg (whatType : String)

/-- Loop body shared by both supported ForEach shapes:
`for _, n2 := range ns { f2 := mk(n2); f2(n) }` — for each auxiliary node the
bound operation is built and immediately applied to the target node. -/
def forEachRun (mk : Node → TransformFunc) : List Node → Node → Node
  | [], n => n
  | n2 :: rest, n => forEachRun mk rest (mk n2 n)

/-- ForEach: the type switch of the source.  The `log.Panicf` on the default
branch halts the program, modelled as `none`; the two supported shapes yield
`some` TransformFunc (in the variadic case each auxiliary node is passed as a
one-element argument list, `f1(n2)`). -/
def ForEach : ForEachArg → List Node → Option TransformFunc
  | .variadicFn f, ns => some (fun n => forEachRun (fun n2 => f [n2]) ns n)
  | .unaryFn f, ns => some (fun n => forEachRun f ns n)
  | .badArg _, _ => none

/-- Transformer encapsulates a document under transformation; the owned
document is modelled by its root node. -/
structure Transformer where
  doc : Node

/-- Path from the root to a node of the tree: the child index taken at each
level.  Query results are node references; a reference into the owned tree is
modelled as such a path. -/
abbrev NodePath := List Nat

/-- Replaces the i-th element of a list by its image under `g` (helper for
applying a TransformFunc at a path). -/
def modifyChild (g : Node → Node) : Nat → List Node → List Node
  | _, [] => []
  | 0, c :: cs => g c :: cs
  | i + 1, c :: cs => c :: modifyChild g i cs

/-- Applies a TransformFunc in place at the node addressed by a path. -/
def updateAt (f : TransformFunc) : NodePath → Node → Node
  | [], n => f n
  | i :: p, n => n.withChild (modifyChild (updateAt f p) i n.Child)

/-- Loop of Transformer.Apply: `for _, n := range nodes { f(n) }`, applying
the TransformFunc to each matched node in query order; a later application
sees the mutations made by the earlier ones. -/
def applyMatches (f : TransformFunc) : List NodePath → Node → Node
  | [], d => d
  | p :: ps, d => applyMatches f ps (updateAt f p d)

/-- Transformer.Apply, from the source:
`sq := NewSelectorQuery(sel...); nodes := sq.Apply(t.doc);
for _, n := range nodes { f(n) }; return t`.
Modelled from the spec where it consumes the external selector engine:
`NewSelectorQuery(sel...).Apply(doc)` is the black-box Query capability,
passed in as `q`, returning the matched node references (paths) in its own
order. -/
def Transformer.Apply (q : Node → List String → List NodePath) (t : Transformer)
    (f : TransformFunc) (sel : List String) : Transformer :=
  Transformer.mk (applyMatches f (q t.doc sel) t.doc)

/-- Store of allocated documents: Go heap locations holding `*Document`
values.  Aliasing (whether the Transformer works on the caller's document or
on its own copy) is observable only through such a store. -/
structure Store where
  heap : Nat → Node
  nextLoc : Nat

/-- Reference to a Transformer whose owned document lives at `docLoc`. -/
structure TransformerRef where
  docLoc : Nat

/-- Modelled from the spec: `d.Clone()` is defined in another file of the
repository; per the spec it is a deep, structure-sharing-free copy of the
document.  In the store model it allocates a fresh location holding an
identical tree and leaves every existing location untouched. -/
def cloneDocAt (s : Store) (l : Nat) : Store × Nat :=
  (Store.mk (fun x => if x = s.nextLoc then s.heap l else s.heap x) (s.nextLoc + 1),
   s.nextLoc)

/-- NewTransform, from the source: `return &Transformer{doc: d.Clone()}` —
the new Transformer owns the freshly allocated clone, not the caller's
document. -/
def NewTransform (s : Store) (l : Nat) : Store × TransformerRef :=
  ((cloneDocAt s l).1, TransformerRef.mk (cloneDocAt s l).2)

/-- One Transformer.Apply call acting through the store: only the document
owned by the Transformer (at `t.docLoc`) is rewritten. -/
def ApplyAt (q : Node → List String → List NodePath) (s : Store) (t : TransformerRef)
    (f : TransformFunc) (sel : List String) : Store :=
  Store.mk
    (fun x => if x = t.docLoc
      then (Transformer.Apply q (Transformer.mk (s.heap t.docLoc)) f sel).doc
      else s.heap x)
    s.nextLoc

/-- A chained sequence of Apply calls on the same Transformer, each with its
own TransformFunc and selector strings. -/
def applySeq (q : Node → List String → List NodePath) (t : TransformerRef) :
    List (TransformFunc × List String) → Store → Store
  | [], s => s
  | op :: rest, s => applySeq q t rest (ApplyAt q s t op.1 op.2)

/-- Concrete node with address 1 and payload a, for closed instances. -/
def nodeA : Node := Node.mk 1 "a" [] []

/-- Concrete node with address 2 and payload b. -/
def nodeB : Node := Node.mk 2 "b" [] []

/-- Concrete node with address 3 and payload c. -/
def nodeC : Node := Node.mk 3 "c" [] []

/-- Concrete node with address 4 and payload d. -/
def nodeD : Node := Node.mk 4 "d" [] []

/-- Concrete node with address 9 and payload x, used as a replacement node. -/
def nodeX : Node := Node.mk 9 "x" [] []

/-- Concrete node with address 5 carrying the single attribute class=x. -/
def nodeN : Node := Node.mk 5 "n" [Attribute.mk "class" "x"] []

/-- Three concrete TransformFuncs, mutating a clone each in CopyAnd tests. -/
def fns3 : List TransformFunc := [ModifyAttrib "k" "1", ModifyAttrib "k" "2", ModifyAttrib "k" "3"]

/-- Concrete Query capability returning no match for any selector. -/
def q0 : Node → List String → List NodePath := fun _ _ => []

/-- Concrete Transformer owning the document rooted at nodeA. -/
def t0 : Transformer := Transformer.mk nodeA

/-- Concrete store with one allocated document location. -/
def store0 : Store := Store.mk (fun _ => nodeA) 1

/-!
Theorems.  First the facts about the embedding that several claims share,
then one theorem per claim (with its witness or counterexample where one is
required).
-/

@[simp] theorem Node.id_withChild (n : Node) (cs : List Node) : (n.withChild cs).id = n.id := by
  cases n; rfl

@[simp] theorem Node.Data_withChild (n : Node) (cs : List Node) : (n.withChild cs).Data = n.Data := by
  cases n; rfl

@[simp] theorem Node.Attr_withChild (n : Node) (cs : List Node) : (n.withChild cs).Attr = n.Attr := by
  cases n; rfl

@[simp] theorem Node.Child_withChild (n : Node) (cs : List Node) : (n.withChild cs).Child = cs := by
  cases n; rfl

@[simp] theorem Node.id_withAttr (n : Node) (l : List Attribute) : (n.withAttr l).id = n.id := by
  cases n; rfl

@[simp] theorem Node.Data_withAttr (n : Node) (l : List Attribute) : (n.withAttr l).Data = n.Data := by
  cases n; rfl

@[simp] theorem Node.Attr_withAttr (n : Node) (l : List Attribute) : (n.withAttr l).Attr = l := by
  cases n; rfl

@[simp] theorem Node.Child_withAttr (n : Node) (l : List Attribute) : (n.withAttr l).Child = n.Child := by
  cases n; rfl

/-- Go copy into a destination at least as long as the source keeps the
source followed by the tail of the destination. -/
theorem goCopy_of_le {α : Type} (dst src : List α) (h : src.length ≤ dst.length) :
    goCopy dst src = src ++ dst.drop src.length := by
  unfold goCopy
  rw [min_eq_right h, List.take_length]

/-- Iterations of the Replace loop over children that are not the target do
not touch the accumulated child list. -/
theorem replaceLoop_no_match (ns : List Node) (tgt : Node) :
    ∀ (l : List Node) (i : Nat) (cur : List Node),
      (∀ c ∈ l, c.id ≠ tgt.id) → replaceLoop ns tgt l i cur = cur := by
  intro l
  induction l with
  | nil => intro i cur _; rfl
  | cons c rest ih =>
    intro i cur h
    have hc : (c.id == tgt.id) = false := by
      simp only [beq_eq_false_iff_ne, ne_eq]
      exact h c (List.mem_cons_self c rest)
    simp only [replaceLoop, hc, Bool.false_eq_true, if_false]
    exact ih (i + 1) cur (fun x hx => h x (List.mem_cons_of_mem _ hx))

/-- The Replace loop splits along an append of the iterated child list. -/
theorem replaceLoop_append (ns : List Node) (tgt : Node) :
    ∀ (l1 l2 : List Node) (i : Nat) (cur : List Node),
      replaceLoop ns tgt (l1 ++ l2) i cur
        = replaceLoop ns tgt l2 (i + l1.length) (replaceLoop ns tgt l1 i cur) := by
  intro l1
  induction l1 with
  | nil => intro l2 i cur; simp [replaceLoop]
  | cons c rest ih =>
    intro l2 i cur
    show replaceLoop ns tgt (rest ++ l2) (i + 1)
        (if c.id == tgt.id then spliceAt i ns cur else cur)
      = replaceLoop ns tgt l2 (i + (rest.length + 1))
          (replaceLoop ns tgt rest (i + 1) (if c.id == tgt.id then spliceAt i ns cur else cur))
    rw [ih]
    have harith : i + 1 + rest.length = i + (rest.length + 1) := by omega
    rw [harith]

/-- Evaluation of the splice at the position of the matched child: the
element at index i-1 (the immediate predecessor) is cut away with the target,
while the whole tail from index i+1 on is kept. -/
theorem splice_decomp (i : Nat) (ns : List Node) (pre post : List Node) (x : Node)
    (hi : i = pre.length) :
    spliceAt i ns (pre ++ x :: post) = pre.take (pre.length - 1) ++ ns ++ post := by
  subst hi
  unfold spliceAt
  rw [List.take_append_eq_append_take, Nat.sub_eq_zero_of_le (Nat.sub_le pre.length 1),
    List.take_zero, List.append_nil, List.drop_append_eq_append_drop,
    List.drop_eq_nil_of_le (by omega : pre.length ≤ pre.length + 1)]
  have h1 : pre.length + 1 - pre.length = 1 := by omega
  rw [h1, List.nil_append, List.drop_one, List.tail_cons]

/-- Replace on a child list containing the target exactly once fires the
splice exactly once, at the target's index. -/
theorem replace_single (ns : List Node) (pre post : List Node) (tgt : Node)
    (h1 : ∀ c ∈ pre, c.id ≠ tgt.id) (h2 : ∀ c ∈ post, c.id ≠ tgt.id) :
    Replace ns tgt (pre ++ tgt :: post) = spliceAt pre.length ns (pre ++ tgt :: post) := by
  unfold Replace
  rw [replaceLoop_append, replaceLoop_no_match ns tgt pre 0 _ h1]
  simp only [replaceLoop, beq_self_eq_true, if_true, Nat.zero_add]
  exact replaceLoop_no_match ns tgt post _ _ h2

/-- Updating every matching value leaves the multiset of keys unchanged, so
the found check gives the same answer after the update pass. -/
theorem any_key_map_upd (k v : String) (l : List Attribute) :
    ((l.map (fun a => if a.Key == k then Attribute.mk a.Key v else a)).any
        (fun a => a.Key == k))
      = l.any (fun a => a.Key == k) := by
  induction l with
  | nil => rfl
  | cons a l ih =>
    simp only [List.map_cons, List.any_cons, ih]
    by_cases h : (a.Key == k) = true
    · simp [h]
    · simp [h]

/-- On the found path, ModifyAttrib rewrites the attribute list by the
value-update map. -/
theorem modifyAttrList_of_found (k v : String) (l : List Attribute)
    (h : (l.any (fun a => a.Key == k)) = true) :
    modifyAttrList k v l = l.map (fun a => if a.Key == k then Attribute.mk a.Key v else a) := by
  unfold modifyAttrList
  rw [if_pos h]

/-- After any ModifyAttrib with key k, some entry with key k is present (on
the not-found path it is the appended final entry). -/
theorem any_key_modifyAttrList (k v : String) (l : List Attribute) :
    ((modifyAttrList k v l).any (fun a => a.Key == k)) = true := by
  unfold modifyAttrList
  by_cases h : (l.any (fun a => a.Key == k)) = true
  · rw [if_pos h, any_key_map_upd, h]
  · rw [if_neg h]
    simp [List.any_append]

/-- After the update pass with value y, every entry with key k holds the
value y. -/
theorem all_map_upd (k y : String) (l : List Attribute) :
    ((l.map (fun a => if a.Key == k then Attribute.mk a.Key y else a)).all
        (fun a => !(a.Key == k) || (a.Val == y)))
      = true := by
  induction l with
  | nil => rfl
  | cons a l ih =>
    simp only [List.map_cons, List.all_cons, Bool.and_eq_true, ih, and_true]
    by_cases h : (a.Key == k) = true
    · simp [h]
    · simp [h]

/-- Applies of a chained sequence only rewrite the store at the location of
the document owned by the Transformer. -/
theorem applySeq_heap_other (q : Node → List String → List NodePath) (t : TransformerRef)
    (x : Nat) (hx : x ≠ t.docLoc) :
    ∀ (ops : List (TransformFunc × List String)) (s : Store),
      (applySeq q t ops s).heap x = s.heap x := by
  intro ops
  induction ops with
  | nil => intro s; rfl
  | cons op rest ih =>
    intro s
    rw [show applySeq q t (op :: rest) s = applySeq q t rest (ApplyAt q s t op.1 op.2) from rfl,
      ih]
    show (if x = t.docLoc then _ else s.heap x) = s.heap x
    rw [if_neg hx]

/-- C1: the claim states that when no attribute entry of the node matches the
key, ModifyAttrib extends the attribute list with exactly one new entry and
drops no pre-existing entry.  The code instead allocates a zero-filled list
of length len+1 and sets only the last slot, never copying the old entries:
at a node holding the single attribute class=x, inserting id=z yields a
zero-valued entry followed by id=z, and class=x is gone. -/
theorem C1_modifyAttrib_insert_drops :
    (ModifyAttrib "id" "z" nodeN).Attr = [Attribute.mk "" "", Attribute.mk "id" "z"]
      ∧ Attribute.mk "class" "x" ∈ nodeN.Attr
      ∧ Attribute.mk "class" "x" ∉ (ModifyAttrib "id" "z" nodeN).Attr := by
  decide

/-- C2 (amended): Replace on node N at index i of its parent's child list
produces take (i-1) of the old list, then the replacements, then the old
elements from index i+1 onward — so N and its immediate predecessor at index
i-1 are dropped, while the element at index i+1 is retained (not dropped as
the original claim goes on to say). -/
theorem C2_replace_splice (ns pre post : List Node) (tgt : Node)
    (h1 : ∀ c ∈ pre, c.id ≠ tgt.id) (h2 : ∀ c ∈ post, c.id ≠ tgt.id) :
    Replace ns tgt (pre ++ tgt :: post)
        = (pre ++ tgt :: post).take (pre.length - 1) ++ ns
            ++ (pre ++ tgt :: post).drop (pre.length + 1)
      ∧ Replace ns tgt (pre ++ tgt :: post) = pre.take (pre.length - 1) ++ ns ++ post := by
  have h := replace_single ns pre post tgt h1 h2
  exact ⟨h, h.trans (splice_decomp _ _ _ _ _ rfl)⟩

/-- C2 witness: replacing c in [a, c, d] with [x] keeps d and cuts a. -/
theorem C2_replace_splice_witness :
    Replace [nodeX] nodeC [nodeA, nodeC, nodeD] = [nodeX, nodeD] := by
  have h := C2_replace_splice [nodeX] [nodeA] [nodeD] nodeC (by decide) (by decide)
  simpa using h.2

/-- C2 counterexample: with children [a, b, c, d] and target c at index i = 2,
the result is [a, x, d]: the element d originally at index i+1 = 3 is a member
of the result (the claim asserts it is dropped from the retained post
segment), while the predecessor b at index i-1 is the element that vanishes. -/
theorem C2_counterexample :
    Replace [nodeX] nodeC [nodeA, nodeB, nodeC, nodeD] = [nodeA, nodeX, nodeD]
      ∧ nodeD ∈ Replace [nodeX] nodeC [nodeA, nodeB, nodeC, nodeD]
      ∧ nodeB ∉ Replace [nodeX] nodeC [nodeA, nodeB, nodeC, nodeD] := by
  refine ⟨rfl, ?_, ?_⟩
  · rw [show Replace [nodeX] nodeC [nodeA, nodeB, nodeC, nodeD] = [nodeA, nodeX, nodeD] from rfl]
    exact List.mem_cons_of_mem _ (List.mem_cons_of_mem _ (List.mem_cons_self _ _))
  · rw [show Replace [nodeX] nodeC [nodeA, nodeB, nodeC, nodeD] = [nodeA, nodeX, nodeD] from rfl]
    intro hmem
    exact absurd (List.mem_map_of_mem Node.id hmem) (by decide)

/-- C3 (amended): CopyAnd deep-clones the target once per TransformFunc with
a fresh address, applies each function to its own clone, and hands the clones
to Replace; with the target at index i of its parent's child list the result
is take (i-1) of the old list, the transformed clones in order, then the old
tail from i+1 on.  With three TransformFuncs the child count therefore grows
by exactly 2 only when the target is the first child; otherwise the immediate
predecessor is also dropped and the count grows by exactly 1. -/
theorem C3_copyAnd (freshId : Nat → Nat) (fns : List TransformFunc) (pre post : List Node)
    (tgt : Node) (h1 : ∀ c ∈ pre, c.id ≠ tgt.id) (h2 : ∀ c ∈ post, c.id ≠ tgt.id) :
    CopyAnd freshId fns tgt (pre ++ tgt :: post)
        = pre.take (pre.length - 1)
            ++ (fns.enum).map (fun p => p.2 (cloneNode (freshId p.1) tgt)) ++ post
      ∧ (fns.length = 3 →
          (CopyAnd freshId fns tgt (pre ++ tgt :: post)).length
            = (pre ++ tgt :: post).length + (if pre.isEmpty then 2 else 1)) := by
  have hmain : CopyAnd freshId fns tgt (pre ++ tgt :: post)
      = pre.take (pre.length - 1)
          ++ (fns.enum).map (fun p => p.2 (cloneNode (freshId p.1) tgt)) ++ post := by
    simp only [CopyAnd]
    rw [replace_single _ _ _ _ h1 h2, splice_decomp _ _ _ _ _ rfl]
  refine ⟨hmain, fun h3 => ?_⟩
  rw [hmain]
  simp only [List.length_append, List.length_take, List.length_map, List.enum_length,
    List.length_cons, h3, min_eq_left (Nat.sub_le pre.length 1)]
  cases pre with
  | nil => simp; omega
  | cons a l =>
    simp only [List.isEmpty_cons, List.length_cons, Bool.false_eq_true, if_false]
    omega

/-- C3 witness: CopyAnd with three TransformFuncs on a first child grows the
parent's child count from 2 to 4. -/
theorem C3_copyAnd_witness :
    (CopyAnd (fun i => 100 + i) fns3 nodeN [nodeN, nodeD]).length = [nodeN, nodeD].length + 2 := by
  have h := C3_copyAnd (fun i => 100 + i) fns3 [] [nodeD] nodeN (by decide) (by decide)
  simpa using h.2 rfl

/-- C3 counterexample: with parent children [a, N] (N not the first child),
CopyAnd with three TransformFuncs yields 3 children, not the 2 + 2 = 4 the
claim's cardinality statement demands — a is dropped alongside N. -/
theorem C3_counterexample :
    (CopyAnd (fun i => 100 + i) fns3 nodeN [nodeA, nodeN]).length = 3
      ∧ [nodeA, nodeN].length + 2 ≠ 3 :=
  ⟨rfl, by decide⟩

/-- C4: Apply queries the current tree, applies the TransformFunc to each
match in query order (each later application sees the earlier mutations), and
returns the Transformer; an empty match set leaves the document untouched and
returns the Transformer unchanged, with no error. -/
theorem C4_apply (q : Node → List String → List NodePath) (t : Transformer)
    (f : TransformFunc) (sel : List String) :
    (q t.doc sel = [] → Transformer.Apply q t f sel = t)
      ∧ (∀ (p : NodePath) (ps : List NodePath) (d : Node),
          applyMatches f (p :: ps) d = applyMatches f ps (updateAt f p d))
      ∧ (Transformer.Apply q t f sel).doc = applyMatches f (q t.doc sel) t.doc := by
  refine ⟨fun h => ?_, fun p ps d => rfl, rfl⟩
  unfold Transformer.Apply
  rw [h]
  rfl

/-- C4 witness: Apply under the no-match Query capability is the identity on
the concrete Transformer. -/
theorem C4_apply_witness : Transformer.Apply q0 t0 RemoveChildren [] = t0 :=
  (C4_apply q0 t0 RemoveChildren []).1 rfl

/-- C5: NewTransform clones the source document into a fresh location, so the
Transformer owns a location distinct from the source's; the clone equals the
source in content, and after any chained sequence of Apply calls the source
location still holds its original document. -/
theorem C5_nondestructive (s : Store) (l : Nat) (q : Node → List String → List NodePath)
    (ops : List (TransformFunc × List String)) (h : l < s.nextLoc) :
    (NewTransform s l).2.docLoc ≠ l
      ∧ ((NewTransform s l).1).heap l = s.heap l
      ∧ ((NewTransform s l).1).heap ((NewTransform s l).2.docLoc) = s.heap l
      ∧ (applySeq q (NewTransform s l).2 ops ((NewTransform s l).1)).heap l = s.heap l := by
  have hne : (NewTransform s l).2.docLoc ≠ l := by
    show s.nextLoc ≠ l
    omega
  have h1 : ((NewTransform s l).1).heap l = s.heap l := by
    show (if l = s.nextLoc then s.heap l else s.heap l) = s.heap l
    split <;> rfl
  have h2 : ((NewTransform s l).1).heap ((NewTransform s l).2.docLoc) = s.heap l := by
    show (if s.nextLoc = s.nextLoc then s.heap l else _) = s.heap l
    rw [if_pos rfl]
  refine ⟨hne, h1, h2, ?_⟩
  rw [applySeq_heap_other q _ l (Ne.symm hne), h1]

/-- C5 witness: in the one-document store, the construction and an empty
Apply sequence leave the source location intact. -/
theorem C5_nondestructive_witness :
    ((NewTransform store0 0).1).heap 0 = store0.heap 0
      ∧ (applySeq q0 (NewTransform store0 0).2 [] ((NewTransform store0 0).1)).heap 0
          = store0.heap 0 := by
  have h := C5_nondestructive store0 0 q0 [] (by decide)
  exact ⟨h.2.1, h.2.2.2⟩

/-- C6: AppendChildren sets the child sequence to the old children followed
by the new ones; PrependChildren sets it to the new children followed by the
old ones. -/
theorem C6_append_prepend (cs : List Node) (n : Node) :
    (AppendChildren cs n).Child = n.Child ++ cs
      ∧ (PrependChildren cs n).Child = cs ++ n.Child := by
  constructor
  · simp only [AppendChildren, Node.Child_withChild]
    have e1 : goCopy (List.replicate (n.Child.length + cs.length) nilNode) n.Child
        = n.Child ++ List.replicate cs.length nilNode := by
      rw [goCopy_of_le _ _ (by simp), List.drop_replicate,
        show n.Child.length + cs.length - n.Child.length = cs.length from by omega]
    rw [e1, List.take_left' rfl, List.drop_left' rfl,
      goCopy_of_le _ _ (by simp), List.drop_replicate, Nat.sub_self, List.replicate_zero,
      List.append_nil]
  · simp only [PrependChildren, Node.Child_withChild]
    have e2 : (List.replicate (n.Child.length + cs.length) nilNode).drop cs.length
        = List.replicate n.Child.length nilNode := by
      rw [List.drop_replicate, show n.Child.length + cs.length - cs.length = n.Child.length
        from by omega]
    have e3 : (List.replicate (n.Child.length + cs.length) nilNode).take cs.length
        = List.replicate cs.length nilNode := by
      rw [List.take_replicate, min_eq_left (by omega)]
    have e4 : goCopy (List.replicate n.Child.length nilNode) n.Child = n.Child := by
      rw [goCopy_of_le _ _ (by simp), List.drop_replicate, Nat.sub_self, List.replicate_zero,
        List.append_nil]
    rw [e2, e3, e4, List.take_left' (List.length_replicate _ _),
      List.drop_left' (List.length_replicate _ _),
      goCopy_of_le _ _ (by simp), List.drop_replicate, Nat.sub_self, List.replicate_zero,
      List.append_nil]

/-- C7: DoAll applies its TransformFuncs sequentially to the same node, each
later one seeing the effect of the earlier ones; in particular setting an
attribute to x and then to y leaves every entry under that key holding y,
with at least one such entry present. -/
theorem C7_doAll :
    (∀ (f : TransformFunc) (fs : List TransformFunc) (n : Node),
        DoAll (f :: fs) n = DoAll fs (f n))
      ∧ (∀ (n : Node) (k x y : String),
          ((DoAll [ModifyAttrib k x, ModifyAttrib k y] n).Attr.any
              (fun a => a.Key == k)) = true
            ∧ ((DoAll [ModifyAttrib k x, ModifyAttrib k y] n).Attr.all
                (fun a => !(a.Key == k) || (a.Val == y))) = true) := by
  constructor
  · intro f fs n; rfl
  · intro n k x y
    have e : (DoAll [ModifyAttrib k x, ModifyAttrib k y] n).Attr
        = modifyAttrList k y (modifyAttrList k x n.Attr) := by
      show (ModifyAttrib k y (ModifyAttrib k x n)).Attr = _
      simp [ModifyAttrib]
    rw [e]
    refine ⟨any_key_modifyAttrList k y _, ?_⟩
    rw [modifyAttrList_of_found k y _ (any_key_modifyAttrList k x n.Attr)]
    exact all_map_upd k y _

/-- C8: ForEach with an argument of unsupported shape halts (none, the
modelled panic) instead of returning a usable operation; with either
supported shape it returns the operation that, for each auxiliary node in
order, builds the bound operation and immediately applies it to the target
node. -/
theorem C8_forEach_dispatch :
    (∀ (s : String) (ns : List Node), ForEach (ForEachArg.badArg s) ns = none)
      ∧ (∀ (f : Node → TransformFunc) (ns : List Node) (n : Node),
          ((ForEach (ForEachArg.unaryFn f) ns).getD (fun m => m)) n = forEachRun f ns n)
      ∧ (∀ (f : List Node → TransformFunc) (ns : List Node) (n : Node),
          ((ForEach (ForEachArg.variadicFn f) ns).getD (fun m => m)) n
            = forEachRun (fun n2 => f [n2]) ns n)
      ∧ (∀ (g : Node → TransformFunc) (n2 : Node) (rest : List Node) (n : Node),
          forEachRun g (n2 :: rest) n = forEachRun g rest (g n2 n)) :=
  ⟨fun _ _ => rfl, fun _ _ _ => rfl, fun _ _ _ => rfl, fun _ _ _ _ => rfl⟩

/-- C9: RemoveChildren empties the child sequence, is idempotent, and leaves
the node's identity, attributes and payload untouched. -/
theorem C9_removeChildren_idempotent (n : Node) :
    (RemoveChildren n).Child = []
      ∧ RemoveChildren (RemoveChildren n) = RemoveChildren n
      ∧ (RemoveChildren n).id = n.id
      ∧ (RemoveChildren n).Attr = n.Attr
      ∧ (RemoveChildren n).Data = n.Data := by
  cases n
  exact ⟨rfl, rfl, rfl, rfl, rfl⟩

/-- C10: Replace applied to a node whose parent's child list contains no
entry with the node's identity leaves the child list unchanged — the
mismatch is silently ignored, no error is raised. -/
theorem C10_replace_no_match (ns : List Node) (tgt : Node) (pchild : List Node)
    (h : ∀ c ∈ pchild, c.id ≠ tgt.id) : Replace ns tgt pchild = pchild :=
  replaceLoop_no_match ns tgt pchild 0 pchild h

/-- C10 witness: replacing c inside [a, b], where c does not occur, is a
no-op. -/
theorem C10_replace_no_match_witness :
    Replace [nodeX] nodeC [nodeA, nodeB] = [nodeA, nodeB] :=
  C10_replace_no_match [nodeX] nodeC [nodeA, nodeB] (by decide)

end transform
